import Mathlib

/-!
Shallow embedding of the acm-manager ingress controller
(`controllers/annotations.go` and the reconciler source file holding
`Reconcile`, `deleteCertificateForDomain`, `ensureCertificate`,
`createRoute53ValidationRecords` and `findMatchingHostedZone`).

External collaborators (the ACM and Route 53 clients, the Kubernetes
API, and the Go standard library's `time.ParseDuration`) are modelled as
oracle fields of a `World` structure; every call the controller makes is
additionally recorded as an `Effect`, so frame properties ("no write
happened") are statements about the produced effect list.
-/

namespace AcmManager

/-- Models Go `strings.EqualFold`: case-insensitive equality by simple
per-character case folding (accurate for ASCII inputs). -/
def equalFold (a b : String) : Bool :=
  a.data.map Char.toLower == b.data.map Char.toLower

/-- Models Go `strings.ToLower` (accurate for ASCII inputs). -/
def toLowerStr (s : String) : String :=
  String.mk (s.data.map Char.toLower)

/-- Models Go `strings.HasSuffix`. -/
def goHasSuffix (s suffix : String) : Bool :=
  suffix.data.isSuffixOf s.data

/-- Models Go `strings.HasPrefix`. -/
def goHasPrefix (s p : String) : Bool :=
  p.data.isPrefixOf s.data

/-- Models Go `strings.TrimSuffix(s, ".")`: drops one trailing dot when present. -/
def stripTrailingDot (s : String) : String :=
  if goHasSuffix s "." then String.mk s.data.dropLast else s

/-- Models Go `strings.TrimPrefix(s, p)`. -/
def trimLeading (p s : String) : String :=
  if goHasPrefix s p then String.mk (s.data.drop p.data.length) else s

/-- Models Go `strings.TrimSpace` (accurate for ASCII whitespace). -/
def goTrimSpace (s : String) : String :=
  String.mk (((s.data.dropWhile Char.isWhitespace).reverse.dropWhile
    Char.isWhitespace).reverse)

/-- Helper for `goSplitComma`: accumulates the current field (reversed). -/
def splitCommaAux : List Char → List Char → List String
  | [], acc => [String.mk acc.reverse]
  | c :: rest, acc =>
    if c = ',' then String.mk acc.reverse :: splitCommaAux rest []
    else splitCommaAux rest (c :: acc)

/-- Models Go `strings.Split(s, ",")`; in particular an empty string
splits into the one-element list containing the empty string. -/
def goSplitComma (s : String) : List String :=
  splitCommaAux s.data []

/-- An annotation map; Go's `map[string]string` is modelled as an
association list (first binding wins). -/
abbrev AnnotMap := List (String × String)

/-- Lookup with presence information (Go's `v, ok := m[k]`). -/
def lookupAnn (m : AnnotMap) (k : String) : Option String :=
  (m.find? (fun p => p.1 == k)).map (fun p => p.2)

/-- Lookup defaulting to `""` (Go's `m[k]` on a string map). -/
def getAnn (m : AnnotMap) (k : String) : String :=
  (lookupAnn m k).getD ""

def managedKey : String := "acm.tedens.dev/managed"
def domainKey : String := "acm.tedens.dev/domain"
def zoneIdKey : String := "acm.tedens.dev/zone-id"
def wildcardKey : String := "acm.tedens.dev/wildcard"
def reuseKey : String := "acm.tedens.dev/reuse-existing"
def deleteKey : String := "acm.tedens.dev/delete-cert-on-ingress-delete"
def sanKey : String := "acm.tedens.dev/san"
def certTtlKey : String := "acm.tedens.dev/cert-ttl"
def fallbackKey : String := "acm.tedens.dev/fallback-wildcard"

/-- `IngressConfig` from `controllers/annotations.go`; durations are in
seconds (the unit is irrelevant to the properties proved here). -/
structure IngressConfig where
  Managed : Bool
  DomainOverride : String
  ZoneID : String
  Wildcard : Bool
  SANs : List String
  CertTTL : Nat
  ReuseExisting : Bool
  DeleteCertOnIngress : Bool
  FallbackWildcard : Bool
deriving DecidableEq, Repr

/-- `DefaultCertTTL = 365 * 24 * time.Hour`, in seconds. -/
def DefaultCertTTL : Nat := 365 * 24 * 60 * 60

/-- `ParseIngressAnnotations` from `controllers/annotations.go`.
`parseDuration` is the Go standard library's `time.ParseDuration`,
an external collaborator passed in as an oracle (`none` = parse error). -/
def ParseIngressAnnotations (parseDuration : String → Option Nat) (m : AnnotMap) :
    IngressConfig :=
  let rawWildcard := toLowerStr (getAnn m wildcardKey)
  let rawDelete := toLowerStr (getAnn m deleteKey)
  { Managed := getAnn m managedKey == "true"
    DomainOverride := getAnn m domainKey
    ZoneID := getAnn m zoneIdKey
    Wildcard := rawWildcard == "true"
    SANs :=
      match lookupAnn m sanKey with
      | some s => (goSplitComma s).map goTrimSpace
      | none => []
    CertTTL :=
      match lookupAnn m certTtlKey with
      | some s =>
        match parseDuration s with
        | some d => d
        | none => DefaultCertTTL
      | none => DefaultCertTTL
    ReuseExisting := getAnn m reuseKey != "false"
    DeleteCertOnIngress := rawDelete == "true"
    FallbackWildcard := getAnn m fallbackKey == "true" }

/-- A certificate summary returned by `ListCertificates`
(`aws.ToString` turns nil pointers into `""`, so fields are plain strings). -/
structure CertSummary where
  domainName : String
  certificateArn : String
deriving DecidableEq, Repr

/-- ACM certificate status; `other` covers every status the Go `switch`
sends to its `default` branch besides PendingValidation. -/
inductive CertStatus where
  | pendingValidation
  | issued
  | failed
  | other (s : String)
deriving DecidableEq, Repr

/-- A DNS validation resource record (name, type, value). -/
structure ResourceRecord where
  name : String
  recordType : String
  value : String
deriving DecidableEq, Repr

/-- One domain-validation option of a described certificate. -/
structure DomainValidationOption where
  domainName : String
  resourceRecord : Option ResourceRecord
deriving DecidableEq, Repr

/-- The describe-certificate response fields the controller reads. -/
structure CertDescription where
  status : CertStatus
  failureReason : String
  domainValidationOptions : List DomainValidationOption
deriving DecidableEq, Repr

/-- A Route 53 hosted zone (name and id). -/
structure HostedZone where
  name : String
  id : String
deriving DecidableEq, Repr

/-- The `RequestCertificateInput` fields the controller sets. -/
structure RequestInput where
  domainName : String
  validationMethod : String
  sans : List String
  tags : List (String × String)
deriving DecidableEq, Repr

/-- The single-record `ChangeResourceRecordSetsInput` the controller builds. -/
structure ChangeInput where
  hostedZoneId : String
  action : String
  name : String
  recordType : String
  ttl : Nat
  value : String
deriving DecidableEq, Repr

def ingressFinalizer : String := "acm.tedens.dev/finalizer"

def certArnKey : String := "alb.ingress.kubernetes.io/certificate-arn"

/-- The watched Ingress resource: annotation map, finalizer list,
deletion-timestamp presence, and the hosts of its rules. -/
structure Ingress where
  annotations : List (String × String)
  finalizers : List String
  deletionTimestamp : Bool
  ruleHosts : List String
deriving DecidableEq, Repr

/-- Every external call the controller can make, recorded in order. -/
inductive Effect where
  | listCerts
  | deleteCert (arn : String)
  | requestCert (req : RequestInput)
  | describeCert (arn : String)
  | listZones
  | upsertRecord (change : ChangeInput)
  | updateIngress (ing : Ingress)
  | patchIngress (ing : Ingress)
deriving DecidableEq, Repr

/-- Oracles for the external collaborators. `describeCertificate` is
indexed by the number of describe calls already made in this pass, so a
hypothesis can speak about "every describe call". List-shaped calls are
modelled as one response per pass (the controller always issues them
with the same arguments). -/
structure World where
  parseDuration : String → Option Nat
  listCertificates : Except String (List CertSummary)
  deleteCertificate : String → Except String Unit
  requestCertificate : RequestInput → Except String String
  describeCertificate : Nat → String → Except String CertDescription
  changeRRS : ChangeInput → Except String Unit
  listHostedZones : Except String (List HostedZone)
  updateIngress : Except String Unit
  patchIngress : Except String Unit

/-- Loop body of `findMatchingHostedZone`: keep `(matchedZoneID,
longestMatchLen)`, replacing only on a strictly longer suffix match
(`len` is Go's byte length). -/
def zoneStep (domain : String) (acc : String × Nat) (zone : HostedZone) : String × Nat :=
  let zoneName := stripTrailingDot zone.name
  if goHasSuffix domain zoneName && decide (acc.2 < zoneName.utf8ByteSize) then
    (zone.id, zoneName.utf8ByteSize)
  else acc

/-- `findMatchingHostedZone`: longest-suffix zone match over the
`ListHostedZones` response; fails when the tracked id is still `""`;
strips the `/hostedzone/` path prefix from the winner's id. -/
def findMatchingHostedZone (zonesRes : Except String (List HostedZone))
    (domain : String) : Except String String :=
  match zonesRes with
  | .error e => .error e
  | .ok zones =>
    let acc := zones.foldl (zoneStep domain) ("", 0)
    if acc.1 == "" then .error ("no matching hosted zone found for domain: " ++ domain)
    else .ok (trimLeading "/hostedzone/" acc.1)

/-- `deleteCertificateForDomain`: list Issued/PendingValidation
certificates, delete the first whose domain case-folds to the input,
no-op when none matches. -/
def deleteCertificateForDomain (w : World) (domain : String) :
    Option String × List Effect :=
  match w.listCertificates with
  | .error e => (some e, [Effect.listCerts])
  | .ok certs =>
    match certs.find? (fun c => equalFold c.domainName domain) with
    | some c =>
      match w.deleteCertificate c.certificateArn with
      | .error e => (some e, [Effect.listCerts, Effect.deleteCert c.certificateArn])
      | .ok _ => (none, [Effect.listCerts, Effect.deleteCert c.certificateArn])
    | none => (none, [Effect.listCerts])

/-- Deduplication key `fmt.Sprintf("%s|%s|%s", name, type, value)`. -/
def recordKey (r : ResourceRecord) : String :=
  r.name ++ "|" ++ r.recordType ++ "|" ++ r.value

/-- The record-set change built for one validation record. -/
def buildChange (hostedZoneId : String) (r : ResourceRecord) : ChangeInput :=
  { hostedZoneId := hostedZoneId
    action := "UPSERT"
    name := r.name
    recordType := r.recordType
    ttl := 300
    value := r.value }

/-- Zone resolution for one validation option: the explicit `zoneID`
override when set, else `findMatchingHostedZone` over the listed zones,
with the source's error wrapping. -/
def zoneResolve (w : World) (zoneID : String) (o : DomainValidationOption) :
    Except String String :=
  if zoneID == "" then
    match findMatchingHostedZone w.listHostedZones o.domainName with
    | .error e => .error ("failed to infer zone: " ++ e)
    | .ok z => .ok z
  else .ok zoneID

/-- The external calls made by one zone resolution: a `ListHostedZones`
call exactly when no override is set. -/
def zoneResolveEffs (zoneID : String) : List Effect :=
  if zoneID == "" then [Effect.listZones] else []

/-- Per-option loop of `createRoute53ValidationRecords`: skip options
without a record, skip keys already `seen` in this pass, resolve the
zone (explicit `zoneID` override, else `findMatchingHostedZone`), and
upsert one record; any failure aborts the remaining options. The `seen`
set is an accumulated key list (Go: `map[string]bool`). -/
def processValidationOptions (w : World) (zoneID : String) :
    List DomainValidationOption → List String → Option String × List Effect
  | [], _ => (none, [])
  | o :: rest, seen =>
    match o.resourceRecord with
    | none => processValidationOptions w zoneID rest seen
    | some record =>
      let key := recordKey record
      if seen.contains key then processValidationOptions w zoneID rest seen
      else
        match zoneResolve w zoneID o with
        | .error e => (some e, zoneResolveEffs zoneID)
        | .ok hostedZoneID =>
          let change := buildChange hostedZoneID record
          match w.changeRRS change with
          | .error e =>
            (some ("failed to create DNS validation record: " ++ e),
              zoneResolveEffs zoneID ++ [Effect.upsertRecord change])
          | .ok _ =>
            let r := processValidationOptions w zoneID rest (seen ++ [key])
            (r.1, zoneResolveEffs zoneID ++ [Effect.upsertRecord change] ++ r.2)

/-- `createRoute53ValidationRecords`: describe the certificate, then
process its validation options with an empty `seen` set. Returns the
error (if any), the effects, and the updated describe-call counter. -/
def createRoute53ValidationRecords (w : World) (certArn : String) (zoneID : String)
    (n : Nat) : Option String × List Effect × Nat :=
  match w.describeCertificate n certArn with
  | .error e =>
    (some ("failed to describe certificate: " ++ e), [Effect.describeCert certArn], n + 1)
  | .ok desc =>
    let r := processValidationOptions w zoneID desc.domainValidationOptions []
    (r.1, Effect.describeCert certArn :: r.2, n + 1)

/-- `timeout := 10 * time.Minute`, in seconds. -/
def validationTimeoutSeconds : Nat := 10 * 60

/-- `interval := 15 * time.Second`, in seconds. -/
def pollIntervalSeconds : Nat := 15

/-- The status poll loop of `ensureCertificate`: `t` is the time elapsed
since the deadline was taken (describe calls are instantaneous, each
sleep advances `t` by the interval), `n` the describe-call counter. The
`attempts` counter of the source only feeds a progress log and carries
no other behavior, so it is not tracked. -/
def pollLoop (w : World) (certArn : String) (t : Nat) (n : Nat) :
    Option String × List Effect × Nat :=
  if _h : validationTimeoutSeconds < t then
    (some ("certificate validation timed out: " ++ certArn), [], n)
  else
    match w.describeCertificate n certArn with
    | .error e => (some e, [Effect.describeCert certArn], n + 1)
    | .ok desc =>
      match desc.status with
      | .issued => (none, [Effect.describeCert certArn], n + 1)
      | .failed =>
        (some ("certificate validation failed: " ++ desc.failureReason),
          [Effect.describeCert certArn], n + 1)
      | _ =>
        let r := pollLoop w certArn (t + pollIntervalSeconds) (n + 1)
        (r.1, Effect.describeCert certArn :: r.2.1, r.2.2)
termination_by validationTimeoutSeconds + 1 - t
decreasing_by
  simp only [validationTimeoutSeconds, pollIntervalSeconds] at *
  omega

/-- The `RequestCertificateInput` built by `ensureCertificate`: DNS
validation, `*.`-prefixed domain when `Wildcard`, the configured SANs
(Go sets the field only when nonempty; an empty list models the unset
field), and the fixed identifying tag. -/
def buildRequest (domain : String) (cfg : IngressConfig) : RequestInput :=
  { domainName := if cfg.Wildcard then "*." ++ domain else domain
    validationMethod := "DNS"
    sans := cfg.SANs
    tags := [("ManagedBy", "acm-manager")] }

/-- Request-and-validate phase of `ensureCertificate` (everything after
the reuse check, whose effects arrive as `effs0`): request, create the
validation records, then poll. Each early `return` of the source is one
`match` arm here. -/
def ensureRequest (w : World) (domain : String) (cfg : IngressConfig)
    (effs0 : List Effect) : String × Option String × List Effect :=
  let req := buildRequest domain cfg
  match w.requestCertificate req with
  | .error e => ("", some e, effs0 ++ [Effect.requestCert req])
  | .ok certArn =>
    let d := createRoute53ValidationRecords w certArn cfg.ZoneID 0
    let effs1 := effs0 ++ [Effect.requestCert req] ++ d.2.1
    match d.1 with
    | some e => (certArn, some e, effs1)
    | none =>
      let p := pollLoop w certArn 0 d.2.2
      (certArn, p.1, effs1 ++ p.2.1)

/-- `ensureCertificate`: optional reuse lookup over Issued/PendingValidation
certificates (first case-insensitive domain match short-circuits), then
the request-and-validate phase. Returns (arn, error, effects); Go
returns the arn alongside the error. -/
def ensureCertificate (w : World) (domain : String) (cfg : IngressConfig) :
    String × Option String × List Effect :=
  if cfg.ReuseExisting then
    match w.listCertificates with
    | .error e => ("", some e, [Effect.listCerts])
    | .ok certs =>
      match certs.find? (fun c => equalFold c.domainName domain) with
      | some c => (c.certificateArn, none, [Effect.listCerts])
      | none => ensureRequest w domain cfg [Effect.listCerts]
  else ensureRequest w domain cfg []

/-- `controllerutil.AddFinalizer`: append when absent (callers check
presence first; the source guards the call with `ContainsFinalizer`). -/
def addFinalizer (ing : Ingress) : Ingress :=
  { ing with finalizers := ing.finalizers ++ [ingressFinalizer] }

/-- `controllerutil.RemoveFinalizer`: drop every occurrence of the token. -/
def removeFinalizer (ing : Ingress) : Ingress :=
  { ing with finalizers := ing.finalizers.filter (fun f => f != ingressFinalizer) }

/-- Go map assignment `m[k] = v` on the association-list model. -/
def setAnnotationValue (m : List (String × String)) (k v : String) :
    List (String × String) :=
  if (m.find? (fun p => p.1 == k)).isSome then
    m.map (fun p => if p.1 == k then (k, v) else p)
  else m ++ [(k, v)]

/-- Domain selection of `Reconcile`: the override if set, else the host
of the first rule, else empty. -/
def resolveDomain (cfg : IngressConfig) (ing : Ingress) : String :=
  if cfg.DomainOverride == "" then
    match ing.ruleHosts with
    | h :: _ => h
    | [] => ""
  else cfg.DomainOverride

/-- `RequeueAfter: 12 * time.Hour`, in seconds. -/
def requeueSeconds : Nat := 12 * 60 * 60

/-- Outcome of one reconcile pass: the returned `ctrl.Result` requeue
delay, the returned error, the in-memory resource at return, and the
external calls made. -/
structure ReconcileResult where
  requeueAfterSeconds : Option Nat
  err : Option String
  ingress : Ingress
  effects : List Effect
deriving DecidableEq, Repr

/-- `Reconcile` from the point the resource is loaded (the initial `Get`
is modelled by handing the loaded resource in): parse annotations, bail
out unmanaged, branch on the deletion timestamp into the
finalizer-ensure/active path or the cleanup/finalizer-removal path. -/
def Reconcile (w : World) (ing0 : Ingress) : ReconcileResult :=
  let cfg := ParseIngressAnnotations w.parseDuration ing0.annotations
  if !cfg.Managed then ⟨none, none, ing0, []⟩
  else
    let domain := resolveDomain cfg ing0
    if ing0.deletionTimestamp then
      if ing0.finalizers.contains ingressFinalizer then
        let cleanup : Option String × List Effect :=
          if cfg.DeleteCertOnIngress then deleteCertificateForDomain w domain
          else (none, [])
        match cleanup with
        | (some e, effs) => ⟨none, some e, ing0, effs⟩
        | (none, effs) =>
          let ing1 := removeFinalizer ing0
          match w.updateIngress with
          | .error e => ⟨none, some e, ing1, effs ++ [Effect.updateIngress ing1]⟩
          | .ok _ => ⟨none, none, ing1, effs ++ [Effect.updateIngress ing1]⟩
      else ⟨none, none, ing0, []⟩
    else
      let finStep : Option String × Ingress × List Effect :=
        if ing0.finalizers.contains ingressFinalizer then (none, ing0, [])
        else
          let ing1 := addFinalizer ing0
          match w.updateIngress with
          | .error e => (some e, ing1, [Effect.updateIngress ing1])
          | .ok _ => (none, ing1, [Effect.updateIngress ing1])
      match finStep with
      | (some e, ing1, effs) => ⟨none, some e, ing1, effs⟩
      | (none, ing1, effs) =>
        let r := ensureCertificate w domain cfg
        match r.2.1 with
        | some e => ⟨none, some e, ing1, effs ++ r.2.2⟩
        | none =>
          let ing2 :=
            { ing1 with annotations := setAnnotationValue ing1.annotations certArnKey r.1 }
          match w.patchIngress with
          | .error e => ⟨none, some e, ing2, effs ++ r.2.2 ++ [Effect.patchIngress ing2]⟩
          | .ok _ =>
            ⟨some requeueSeconds, none, ing2, effs ++ r.2.2 ++ [Effect.patchIngress ing2]⟩

end AcmManager

namespace AcmManager

/-! ### Shared concrete instances used by witnesses -/

/-- A world whose calls all succeed trivially; used to instantiate
universally quantified theorems at concrete inputs. -/
def quietWorld : World :=
  { parseDuration := fun _ => none
    listCertificates := .ok []
    deleteCertificate := fun _ => .ok ()
    requestCertificate := fun _ => .ok "arn-new"
    describeCertificate := fun _ _ =>
      .ok { status := .pendingValidation, failureReason := "", domainValidationOptions := [] }
    changeRRS := fun _ => .ok ()
    listHostedZones := .ok []
    updateIngress := .ok ()
    patchIngress := .ok () }

/-! ### C2 — boolean annotation parsing -/

/-- C2 (counterexample): the claim says every boolean annotation key is
parsed case-insensitively against "true", and that reuse-existing is
disabled by "false" case-insensitively. The code compares `managed` and
`fallback-wildcard` with the exact string "true" and `reuse-existing`
with the exact string "false": `managed="True"` and
`fallback-wildcard="TRUE"` do not enable their flags, and
`reuse-existing="False"` does not disable reuse. -/
theorem c2_boolean_annotations_counterexample :
    (ParseIngressAnnotations (fun _ => none) [(managedKey, "True")]).Managed = false
    ∧ (ParseIngressAnnotations (fun _ => none) [(fallbackKey, "TRUE")]).FallbackWildcard = false
    ∧ (ParseIngressAnnotations (fun _ => none) [(reuseKey, "False")]).ReuseExisting = true := by
  decide

/-- C2 (amended): `wildcard` and `delete-cert-on-ingress-delete` are
parsed case-insensitively against "true"; `managed` and
`fallback-wildcard` are enabled only by the exact lowercase string
"true"; `reuse-existing` defaults to true when the key is absent and is
disabled only by the exact lowercase string "false". -/
theorem c2_boolean_annotations (pd : String → Option Nat) (m : AnnotMap) :
    (ParseIngressAnnotations pd m).Wildcard = (toLowerStr (getAnn m wildcardKey) == "true")
    ∧ (ParseIngressAnnotations pd m).DeleteCertOnIngress
        = (toLowerStr (getAnn m deleteKey) == "true")
    ∧ (ParseIngressAnnotations pd m).Managed = (getAnn m managedKey == "true")
    ∧ (ParseIngressAnnotations pd m).FallbackWildcard = (getAnn m fallbackKey == "true")
    ∧ (ParseIngressAnnotations pd m).ReuseExisting = !(getAnn m reuseKey == "false")
    ∧ (lookupAnn m reuseKey = none → (ParseIngressAnnotations pd m).ReuseExisting = true) := by
  refine ⟨rfl, rfl, rfl, rfl, rfl, ?_⟩
  intro h
  show (getAnn m reuseKey != "false") = true
  simp [getAnn, h]

/-- C2 (witness): the amended theorem instantiated on a concrete map. -/
theorem c2_boolean_annotations_witness :
    lookupAnn [(wildcardKey, "True")] reuseKey = none
    ∧ (ParseIngressAnnotations (fun _ => none) [(wildcardKey, "True")]).ReuseExisting = true :=
  ⟨by decide, (c2_boolean_annotations (fun _ => none) [(wildcardKey, "True")]).2.2.2.2.2
    (by decide)⟩

/-! ### C8 — subject-alternative-names parsing -/

/-- C8 (counterexample): the claim says empty input yields an empty SAN
list; a present `san` annotation with empty value yields the one-element
list containing the empty string. -/
theorem c8_san_counterexample :
    (ParseIngressAnnotations (fun _ => none) [(sanKey, "")]).SANs = [""]
    ∧ (ParseIngressAnnotations (fun _ => none) [(sanKey, "")]).SANs ≠ [] := by
  decide

/-- C8 (amended): an absent `san` key yields the empty list; a present
value is split on commas with each element trimmed of surrounding
whitespace (so a present empty value yields one empty element). -/
theorem c8_san_parsing (pd : String → Option Nat) (m : AnnotMap) :
    (lookupAnn m sanKey = none → (ParseIngressAnnotations pd m).SANs = [])
    ∧ (∀ s, lookupAnn m sanKey = some s →
        (ParseIngressAnnotations pd m).SANs = (goSplitComma s).map goTrimSpace) := by
  constructor
  · intro h
    simp [ParseIngressAnnotations, h]
  · intro s h
    simp [ParseIngressAnnotations, h]

/-- C8 (witness): the amended theorem instantiated on a concrete map. -/
theorem c8_san_parsing_witness :
    lookupAnn [(sanKey, " a.com , b.com")] sanKey = some " a.com , b.com"
    ∧ (ParseIngressAnnotations (fun _ => none) [(sanKey, " a.com , b.com")]).SANs
        = (goSplitComma " a.com , b.com").map goTrimSpace :=
  ⟨by decide, (c8_san_parsing (fun _ => none) [(sanKey, " a.com , b.com")]).2
    " a.com , b.com" (by decide)⟩

/-! ### C7 — unmanaged resources are inert -/

/-- C7: when the managed annotation is absent or not exactly "true", the
resolved config has `Managed = false` and the reconcile pass returns no
error, requests no requeue, leaves the resource untouched, and performs
no external call at all — regardless of all other annotations, the
deletion timestamp, and finalizer presence. -/
theorem c7_unmanaged_noop (w : World) (ing : Ingress)
    (hm : getAnn ing.annotations managedKey ≠ "true") :
    (ParseIngressAnnotations w.parseDuration ing.annotations).Managed = false
    ∧ Reconcile w ing = ⟨none, none, ing, []⟩ := by
  have h : (getAnn ing.annotations managedKey == "true") = false :=
    beq_eq_false_iff_ne.mpr hm
  constructor
  · show (getAnn ing.annotations managedKey == "true") = false
    exact h
  · unfold Reconcile
    simp [ParseIngressAnnotations, h]

/-- C7 (witness): a deleting resource with a finalizer, a delete-enabling
annotation and `managed="True"` (not exactly "true") is left alone. -/
theorem c7_unmanaged_noop_witness :
    getAnn [(managedKey, "True"), (deleteKey, "true")] managedKey ≠ "true"
    ∧ Reconcile quietWorld
        ⟨[(managedKey, "True"), (deleteKey, "true")], [ingressFinalizer], true, []⟩
      = ⟨none, none,
          ⟨[(managedKey, "True"), (deleteKey, "true")], [ingressFinalizer], true, []⟩, []⟩ :=
  ⟨by decide,
    (c7_unmanaged_noop quietWorld
      ⟨[(managedKey, "True"), (deleteKey, "true")], [ingressFinalizer], true, []⟩
      (by decide)).2⟩

end AcmManager

namespace AcmManager

/-! ### C5 — reuse short-circuit -/

/-- C5: with `ReuseExisting` set, when the Issued/PendingValidation
certificate listing contains a case-insensitive domain match, the first
match's identifier is returned with no error, and the only external
call of the whole `ensureCertificate` run is the listing itself — no
request, no DNS record, no describe/poll. -/
theorem c5_reuse_short_circuit (w : World) (domain : String) (cfg : IngressConfig)
    (certs : List CertSummary) (c : CertSummary)
    (hre : cfg.ReuseExisting = true)
    (hlist : w.listCertificates = .ok certs)
    (hfind : certs.find? (fun x => equalFold x.domainName domain) = some c) :
    ensureCertificate w domain cfg = (c.certificateArn, none, [Effect.listCerts]) := by
  unfold ensureCertificate
  rw [hre, hlist]
  simp [hfind]

/-- C5 (witness): a pending certificate for the same domain in another
case is reused; the request oracle is never consulted. -/
theorem c5_reuse_short_circuit_witness :
    ({ quietWorld with listCertificates := .ok [⟨"A.Example.COM", "arn-old"⟩] }
        : World).listCertificates = .ok [⟨"A.Example.COM", "arn-old"⟩]
    ∧ [(⟨"A.Example.COM", "arn-old"⟩ : CertSummary)].find?
        (fun x => equalFold x.domainName "a.example.com") = some ⟨"A.Example.COM", "arn-old"⟩
    ∧ ensureCertificate { quietWorld with listCertificates := .ok [⟨"A.Example.COM", "arn-old"⟩] }
        "a.example.com" ⟨true, "", "", false, [], 0, true, false, false⟩
      = ("arn-old", none, [Effect.listCerts]) :=
  ⟨rfl, by decide,
    c5_reuse_short_circuit _ "a.example.com" ⟨true, "", "", false, [], 0, true, false, false⟩
      [⟨"A.Example.COM", "arn-old"⟩] ⟨"A.Example.COM", "arn-old"⟩ rfl rfl (by decide)⟩

/-! ### C10 — wildcard requests are never matched by the reuse check -/

/-- The reuse comparison can never equate a `*.`-prefixed name with the
bare domain: the folded character lists differ in length. -/
theorem equalFold_wildcard_ne (d : String) : equalFold ("*." ++ d) d = false := by
  cases hb : equalFold ("*." ++ d) d
  · rfl
  · exfalso
    unfold equalFold at hb
    have heq := eq_of_beq hb
    have hlen := congrArg List.length heq
    rw [String.data_append] at hlen
    simp at hlen
    omega

/-- C10: with `Wildcard` and `ReuseExisting` both set, the reuse check
compares against the bare input domain while the request is submitted
for the `*.`-prefixed domain; hence a listing consisting of certificates
for `*.<domain>` (e.g. created by a previous pass of the same resource)
is never matched, and a fresh request for `*.<domain>` is submitted. -/
theorem c10_wildcard_reuse_mismatch (w : World) (domain : String) (cfg : IngressConfig)
    (certs : List CertSummary)
    (hw : cfg.Wildcard = true)
    (hre : cfg.ReuseExisting = true)
    (hlist : w.listCertificates = .ok certs)
    (hcerts : ∀ c ∈ certs, c.domainName = "*." ++ domain) :
    certs.find? (fun c => equalFold c.domainName domain) = none
    ∧ (buildRequest domain cfg).domainName = "*." ++ domain
    ∧ ∃ rest, (ensureCertificate w domain cfg).2.2 =
        Effect.listCerts :: Effect.requestCert (buildRequest domain cfg) :: rest := by
  have hfind : certs.find? (fun c => equalFold c.domainName domain) = none := by
    rw [List.find?_eq_none]
    intro c hc
    rw [hcerts c hc]
    simp [equalFold_wildcard_ne]
  refine ⟨hfind, by simp [buildRequest, hw], ?_⟩
  unfold ensureCertificate
  rw [hre, hlist]
  simp only [hfind]
  unfold ensureRequest
  cases hreq : w.requestCertificate (buildRequest domain cfg) with
  | error e =>
    refine ⟨[], ?_⟩
    simp [hreq]
  | ok arn =>
    cases hd1 : (createRoute53ValidationRecords w arn cfg.ZoneID 0).1 with
    | some e =>
      refine ⟨(createRoute53ValidationRecords w arn cfg.ZoneID 0).2.1, ?_⟩
      simp [hreq, hd1]
    | none =>
      refine ⟨(createRoute53ValidationRecords w arn cfg.ZoneID 0).2.1
        ++ (pollLoop w arn 0 (createRoute53ValidationRecords w arn cfg.ZoneID 0).2.2).2.1, ?_⟩
      simp [hreq, hd1]

/-- C10 (witness): a certificate for `*.a.com` left by a previous pass
is not reused for input domain `a.com`; a fresh `*.a.com` request goes out. -/
theorem c10_wildcard_reuse_mismatch_witness :
    (∀ c ∈ [(⟨"*.a.com", "arn-w"⟩ : CertSummary)], c.domainName = "*." ++ "a.com")
    ∧ [(⟨"*.a.com", "arn-w"⟩ : CertSummary)].find?
        (fun c => equalFold c.domainName "a.com") = none
    ∧ (buildRequest "a.com" ⟨true, "", "Z", true, [], 0, true, false, false⟩).domainName
        = "*." ++ "a.com"
    ∧ ∃ rest,
        (ensureCertificate { quietWorld with listCertificates := .ok [⟨"*.a.com", "arn-w"⟩] }
          "a.com" ⟨true, "", "Z", true, [], 0, true, false, false⟩).2.2 =
          Effect.listCerts ::
            Effect.requestCert (buildRequest "a.com" ⟨true, "", "Z", true, [], 0, true, false, false⟩)
            :: rest := by
  have h := c10_wildcard_reuse_mismatch
    { quietWorld with listCertificates := .ok [⟨"*.a.com", "arn-w"⟩] }
    "a.com" ⟨true, "", "Z", true, [], 0, true, false, false⟩
    [⟨"*.a.com", "arn-w"⟩] rfl rfl rfl (by decide)
  exact ⟨by decide, h.1, h.2.1, h.2.2⟩

end AcmManager

namespace AcmManager

/-! ### C1 — cleanup failure blocks finalizer removal -/

/-- The error component of a Go-style `error` return. -/
def exceptErr : Except String Unit → Option String
  | .error e => some e
  | .ok _ => none

/-- Cleanup only lists and deletes certificates: its effect trace never
contains a resource update. -/
theorem deleteCert_effects_no_update (w : World) (domain : String) (i : Ingress) :
    Effect.updateIngress i ∉ (deleteCertificateForDomain w domain).2 := by
  unfold deleteCertificateForDomain
  split
  · simp
  · split
    · split
      · simp
      · simp
    · simp

/-- C1: on a reconcile of a managed resource with deletion timestamp and
finalizer present — (a) if `DeleteCertOnIngress` holds and cleanup
fails, the reconcile returns that error, the finalizer list is exactly
the original one, and no update is persisted; (b) if cleanup is disabled
or (c) succeeds, the finalizer is removed and the removal is persisted
by an update call carrying the shrunken finalizer list. -/
theorem c1_deletion_cleanup_gates_finalizer (w : World) (ing : Ingress)
    (cfg : IngressConfig)
    (hcfg : ParseIngressAnnotations w.parseDuration ing.annotations = cfg)
    (hm : cfg.Managed = true)
    (hdel : ing.deletionTimestamp = true)
    (hfin : ing.finalizers.contains ingressFinalizer = true) :
    (∀ e deffs, cfg.DeleteCertOnIngress = true →
        deleteCertificateForDomain w (resolveDomain cfg ing) = (some e, deffs) →
        Reconcile w ing = ⟨none, some e, ing, deffs⟩
          ∧ ∀ i, Effect.updateIngress i ∉ deffs)
    ∧ (cfg.DeleteCertOnIngress = false →
        Reconcile w ing = ⟨none, exceptErr w.updateIngress, removeFinalizer ing,
          [Effect.updateIngress (removeFinalizer ing)]⟩)
    ∧ (∀ deffs, cfg.DeleteCertOnIngress = true →
        deleteCertificateForDomain w (resolveDomain cfg ing) = (none, deffs) →
        Reconcile w ing = ⟨none, exceptErr w.updateIngress, removeFinalizer ing,
          deffs ++ [Effect.updateIngress (removeFinalizer ing)]⟩) := by
  have hfin' : ingressFinalizer ∈ ing.finalizers := by simpa using hfin
  refine ⟨?_, ?_, ?_⟩
  · intro e deffs hdc hclean
    constructor
    · unfold Reconcile
      rw [hcfg]
      simp [hm, hdel, hfin, hfin', hdc, hclean]
    · intro i hmem
      have := deleteCert_effects_no_update w (resolveDomain cfg ing) i
      rw [hclean] at this
      exact this hmem
  · intro hdc
    unfold Reconcile
    rw [hcfg]
    cases hupd : w.updateIngress with
    | error e => simp [hm, hdel, hfin, hfin', hdc, hupd, exceptErr]
    | ok u => simp [hm, hdel, hfin, hfin', hdc, hupd, exceptErr]
  · intro deffs hdc hclean
    unfold Reconcile
    rw [hcfg]
    cases hupd : w.updateIngress with
    | error e => simp [hm, hdel, hfin, hfin', hdc, hclean, hupd, exceptErr]
    | ok u => simp [hm, hdel, hfin, hfin', hdc, hclean, hupd, exceptErr]

/-- World used by the C1 witness: one matching certificate, whose
deletion fails. -/
def failingDeleteWorld : World :=
  { quietWorld with
      listCertificates := .ok [⟨"a.com", "arn-del"⟩]
      deleteCertificate := fun _ => .error "AccessDenied" }

/-- Ingress used by the C1 witness: managed, delete-on-ingress-delete
enabled, being deleted, finalizer present. -/
def deletingIngress : Ingress :=
  { annotations := [(managedKey, "true"), (deleteKey, "true"), (domainKey, "a.com")]
    finalizers := [ingressFinalizer]
    deletionTimestamp := true
    ruleHosts := [] }

/-- C1 (witness): the cleanup failure path at a concrete input — the
delete call fails, the error is surfaced and the finalizer survives. -/
theorem c1_deletion_cleanup_gates_finalizer_witness :
    deleteCertificateForDomain failingDeleteWorld
        (resolveDomain (ParseIngressAnnotations failingDeleteWorld.parseDuration
          deletingIngress.annotations) deletingIngress)
      = (some "AccessDenied", [Effect.listCerts, Effect.deleteCert "arn-del"])
    ∧ Reconcile failingDeleteWorld deletingIngress
      = ⟨none, some "AccessDenied", deletingIngress,
          [Effect.listCerts, Effect.deleteCert "arn-del"]⟩ :=
  ⟨by decide,
    ((c1_deletion_cleanup_gates_finalizer failingDeleteWorld deletingIngress _
      rfl (by decide) rfl rfl).1 "AccessDenied"
      [Effect.listCerts, Effect.deleteCert "arn-del"] (by decide) (by decide)).1⟩

end AcmManager

namespace AcmManager

/-! ### C6 — one upsert per distinct validation record -/

/-- The dedup key of an upsert change (it coincides with the key of the
record the change was built from). -/
def changeKey (c : ChangeInput) : String :=
  c.name ++ "|" ++ c.recordType ++ "|" ++ c.value

/-- Whether an effect is an upsert of a record with dedup key `k`. -/
def isUpsertWithKey (k : String) (e : Effect) : Bool :=
  match e with
  | Effect.upsertRecord c => changeKey c == k
  | _ => false

/-- How many upserts for dedup key `k` a trace contains. -/
def upsertCountWithKey (k : String) (effs : List Effect) : Nat :=
  (effs.filter (isUpsertWithKey k)).length

/-- Whether a validation option carries a record with dedup key `k`. -/
def optionHasKey (k : String) (o : DomainValidationOption) : Bool :=
  match o.resourceRecord with
  | some r => recordKey r == k
  | none => false

theorem upsertCount_append (k : String) (a b : List Effect) :
    upsertCountWithKey k (a ++ b) = upsertCountWithKey k a + upsertCountWithKey k b := by
  unfold upsertCountWithKey
  rw [List.filter_append, List.length_append]

theorem upsertCount_zoneEffs (k : String) (zoneID : String) :
    upsertCountWithKey k (zoneResolveEffs zoneID) = 0 := by
  unfold zoneResolveEffs
  split <;> simp [upsertCountWithKey, isUpsertWithKey]

theorem process_cons_none (w : World) (zoneID : String)
    (o : DomainValidationOption) (rest : List DomainValidationOption)
    (seen : List String) (hrec : o.resourceRecord = none) :
    processValidationOptions w zoneID (o :: rest) seen =
      processValidationOptions w zoneID rest seen := by
  conv_lhs => rw [processValidationOptions]
  rw [hrec]

theorem process_cons_seen (w : World) (zoneID : String)
    (o : DomainValidationOption) (rest : List DomainValidationOption)
    (seen : List String) (record : ResourceRecord)
    (hrec : o.resourceRecord = some record)
    (hseen : seen.contains (recordKey record) = true) :
    processValidationOptions w zoneID (o :: rest) seen =
      processValidationOptions w zoneID rest seen := by
  conv_lhs => rw [processValidationOptions]
  rw [hrec]
  simp only [hseen, if_pos]

theorem process_cons_zone_error (w : World) (zoneID : String)
    (o : DomainValidationOption) (rest : List DomainValidationOption)
    (seen : List String) (record : ResourceRecord) (e : String)
    (hrec : o.resourceRecord = some record)
    (hseen : seen.contains (recordKey record) = false)
    (hzone : zoneResolve w zoneID o = .error e) :
    processValidationOptions w zoneID (o :: rest) seen =
      (some e, zoneResolveEffs zoneID) := by
  conv_lhs => rw [processValidationOptions]
  rw [hrec]
  simp only [hseen, Bool.false_eq_true, if_false, hzone]

theorem process_cons_rrs_error (w : World) (zoneID : String)
    (o : DomainValidationOption) (rest : List DomainValidationOption)
    (seen : List String) (record : ResourceRecord) (hz e : String)
    (hrec : o.resourceRecord = some record)
    (hseen : seen.contains (recordKey record) = false)
    (hzone : zoneResolve w zoneID o = .ok hz)
    (hrrs : w.changeRRS (buildChange hz record) = .error e) :
    processValidationOptions w zoneID (o :: rest) seen =
      (some ("failed to create DNS validation record: " ++ e),
        zoneResolveEffs zoneID ++ [Effect.upsertRecord (buildChange hz record)]) := by
  conv_lhs => rw [processValidationOptions]
  rw [hrec]
  simp only [hseen, Bool.false_eq_true, if_false, hzone, hrrs]

theorem process_cons_ok (w : World) (zoneID : String)
    (o : DomainValidationOption) (rest : List DomainValidationOption)
    (seen : List String) (record : ResourceRecord) (hz : String) (u : Unit)
    (hrec : o.resourceRecord = some record)
    (hseen : seen.contains (recordKey record) = false)
    (hzone : zoneResolve w zoneID o = .ok hz)
    (hrrs : w.changeRRS (buildChange hz record) = .ok u) :
    processValidationOptions w zoneID (o :: rest) seen =
      ((processValidationOptions w zoneID rest (seen ++ [recordKey record])).1,
        zoneResolveEffs zoneID ++ [Effect.upsertRecord (buildChange hz record)]
          ++ (processValidationOptions w zoneID rest (seen ++ [recordKey record])).2) := by
  conv_lhs => rw [processValidationOptions]
  rw [hrec]
  simp only [hseen, Bool.false_eq_true, if_false, hzone, hrrs]

end AcmManager

namespace AcmManager

theorem upsertCount_single (k : String) (c : ChangeInput) :
    upsertCountWithKey k [Effect.upsertRecord c] = if changeKey c == k then 1 else 0 := by
  cases h : (changeKey c == k) <;> simp [upsertCountWithKey, isUpsertWithKey, h]

/-- A key already recorded as seen is never upserted again in the rest
of the pass. -/
theorem upsertCount_seen (w : World) (zoneID : String) (k : String) :
    ∀ (opts : List DomainValidationOption) (seen : List String), k ∈ seen →
      upsertCountWithKey k (processValidationOptions w zoneID opts seen).2 = 0 := by
  intro opts
  induction opts with
  | nil =>
    intro seen hk
    simp [processValidationOptions, upsertCountWithKey]
  | cons o rest ih =>
    intro seen hk
    cases hrec : o.resourceRecord with
    | none => rw [process_cons_none w zoneID o rest seen hrec]; exact ih seen hk
    | some record =>
      cases hseen : seen.contains (recordKey record) with
      | true => rw [process_cons_seen w zoneID o rest seen record hrec hseen]; exact ih seen hk
      | false =>
        have hne : (recordKey record == k) = false := by
          rw [beq_eq_false_iff_ne]
          intro hkey
          rw [hkey] at hseen
          have h2 := List.elem_eq_true_of_mem hk
          rw [show List.elem k seen = seen.contains k from rfl, hseen] at h2
          exact Bool.noConfusion h2
        cases hzone : zoneResolve w zoneID o with
        | error e =>
          rw [process_cons_zone_error w zoneID o rest seen record e hrec hseen hzone]
          exact upsertCount_zoneEffs k zoneID
        | ok hz =>
          have hchange : changeKey (buildChange hz record) = recordKey record := rfl
          cases hrrs : w.changeRRS (buildChange hz record) with
          | error e =>
            rw [process_cons_rrs_error w zoneID o rest seen record hz e hrec hseen hzone hrrs]
            rw [upsertCount_append, upsertCount_zoneEffs, upsertCount_single, hchange, hne]
            simp
          | ok u =>
            rw [process_cons_ok w zoneID o rest seen record hz u hrec hseen hzone hrrs]
            rw [upsertCount_append, upsertCount_append, upsertCount_zoneEffs,
              upsertCount_single, hchange, hne]
            rw [ih (seen ++ [recordKey record]) (by simp [hk])]
            simp

/-- No key is ever upserted more than once within a pass, whether or not
the pass completes. -/
theorem upsertCount_le_one (w : World) (zoneID : String) (k : String) :
    ∀ (opts : List DomainValidationOption) (seen : List String),
      upsertCountWithKey k (processValidationOptions w zoneID opts seen).2 ≤ 1 := by
  intro opts
  induction opts with
  | nil =>
    intro seen
    simp [processValidationOptions, upsertCountWithKey]
  | cons o rest ih =>
    intro seen
    cases hrec : o.resourceRecord with
    | none => rw [process_cons_none w zoneID o rest seen hrec]; exact ih seen
    | some record =>
      cases hseen : seen.contains (recordKey record) with
      | true => rw [process_cons_seen w zoneID o rest seen record hrec hseen]; exact ih seen
      | false =>
        cases hzone : zoneResolve w zoneID o with
        | error e =>
          rw [process_cons_zone_error w zoneID o rest seen record e hrec hseen hzone]
          rw [upsertCount_zoneEffs]
          omega
        | ok hz =>
          have hchange : changeKey (buildChange hz record) = recordKey record := rfl
          cases hrrs : w.changeRRS (buildChange hz record) with
          | error e =>
            rw [process_cons_rrs_error w zoneID o rest seen record hz e hrec hseen hzone hrrs]
            rw [upsertCount_append, upsertCount_zoneEffs, upsertCount_single]
            split <;> omega
          | ok u =>
            rw [process_cons_ok w zoneID o rest seen record hz u hrec hseen hzone hrrs]
            rw [upsertCount_append, upsertCount_append, upsertCount_zoneEffs,
              upsertCount_single, hchange]
            cases hkk : (recordKey record == k) with
            | true =>
              rw [upsertCount_seen w zoneID k rest (seen ++ [recordKey record])
                (by simp [eq_of_beq hkk])]
              simp
            | false =>
              have := ih (seen ++ [recordKey record])
              simpa using this

/-- On a pass that completes without error and starts with `k` unseen,
the number of upserts for `k` is exactly one when some option carries a
record with key `k`, and zero otherwise. -/
theorem upsertCount_success_exact (w : World) (zoneID : String) (k : String) :
    ∀ (opts : List DomainValidationOption) (seen : List String), k ∉ seen →
      (processValidationOptions w zoneID opts seen).1 = none →
      upsertCountWithKey k (processValidationOptions w zoneID opts seen).2 =
        if opts.any (optionHasKey k) then 1 else 0 := by
  intro opts
  induction opts with
  | nil =>
    intro seen hk hok
    simp [processValidationOptions, upsertCountWithKey]
  | cons o rest ih =>
    intro seen hk hok
    cases hrec : o.resourceRecord with
    | none =>
      rw [process_cons_none w zoneID o rest seen hrec] at hok ⊢
      rw [ih seen hk hok]
      have hno : optionHasKey k o = false := by simp [optionHasKey, hrec]
      simp [List.any_cons, hno]
    | some record =>
      have hkseen : ∀ hkk : (recordKey record == k) = true,
          seen.contains (recordKey record) = false → True := fun _ _ => trivial
      cases hseen : seen.contains (recordKey record) with
      | true =>
        rw [process_cons_seen w zoneID o rest seen record hrec hseen] at hok ⊢
        rw [ih seen hk hok]
        have hne : (recordKey record == k) = false := by
          rw [beq_eq_false_iff_ne]
          intro hkey
          rw [hkey] at hseen
          have h2 : List.elem k seen = true := hseen
          exact hk (List.mem_of_elem_eq_true h2)
        have hno : optionHasKey k o = false := by simp [optionHasKey, hrec, hne]
        simp [List.any_cons, hno]
      | false =>
        cases hzone : zoneResolve w zoneID o with
        | error e =>
          rw [process_cons_zone_error w zoneID o rest seen record e hrec hseen hzone] at hok
          exact absurd hok (by simp)
        | ok hz =>
          have hchange : changeKey (buildChange hz record) = recordKey record := rfl
          cases hrrs : w.changeRRS (buildChange hz record) with
          | error e =>
            rw [process_cons_rrs_error w zoneID o rest seen record hz e hrec hseen hzone hrrs]
              at hok
            exact absurd hok (by simp)
          | ok u =>
            rw [process_cons_ok w zoneID o rest seen record hz u hrec hseen hzone hrrs]
              at hok ⊢
            simp only at hok
            rw [upsertCount_append, upsertCount_append, upsertCount_zoneEffs,
              upsertCount_single, hchange]
            cases hkk : (recordKey record == k) with
            | true =>
              rw [upsertCount_seen w zoneID k rest (seen ++ [recordKey record])
                (by simp [eq_of_beq hkk])]
              have hyes : optionHasKey k o = true := by simp [optionHasKey, hrec, hkk]
              simp [List.any_cons, hyes]
            | false =>
              have hknot : k ∉ seen ++ [recordKey record] := by
                intro hmem
                rcases List.mem_append.mp hmem with h1 | h2
                · exact hk h1
                · have : k = recordKey record := by simpa using h2
                  rw [beq_eq_false_iff_ne] at hkk
                  exact hkk this.symm
              rw [ih (seen ++ [recordKey record]) hknot hok]
              have hno : optionHasKey k o = false := by simp [optionHasKey, hrec, hkk]
              simp [List.any_cons, hno]

end AcmManager

namespace AcmManager

/-- C6: within one `createRoute53ValidationRecords` pass, a given DNS
record descriptor (name, type, value) is upserted at most once; when the
pass completes without error it is upserted exactly once if some
validation requirement carries it (in particular when two or more
requirements carry the identical descriptor) and zero times otherwise;
and a requirement without a record descriptor is skipped entirely (it
contributes no call and no state). -/
theorem c6_validation_record_dedup (w : World) (certArn zoneID : String) (n : Nat)
    (desc : CertDescription) (k : String)
    (hdesc : w.describeCertificate n certArn = .ok desc) :
    upsertCountWithKey k (createRoute53ValidationRecords w certArn zoneID n).2.1 ≤ 1
    ∧ ((createRoute53ValidationRecords w certArn zoneID n).1 = none →
        upsertCountWithKey k (createRoute53ValidationRecords w certArn zoneID n).2.1 =
          if desc.domainValidationOptions.any (optionHasKey k) then 1 else 0)
    ∧ (∀ o opts seen, o.resourceRecord = none →
        processValidationOptions w zoneID (o :: opts) seen =
          processValidationOptions w zoneID opts seen) := by
  have hred : createRoute53ValidationRecords w certArn zoneID n =
      ((processValidationOptions w zoneID desc.domainValidationOptions []).1,
        Effect.describeCert certArn
          :: (processValidationOptions w zoneID desc.domainValidationOptions []).2,
        n + 1) := by
    unfold createRoute53ValidationRecords
    rw [hdesc]
  have hcnt : ∀ effs, upsertCountWithKey k (Effect.describeCert certArn :: effs) =
      upsertCountWithKey k effs := by
    intro effs
    simp [upsertCountWithKey, isUpsertWithKey]
  refine ⟨?_, ?_, ?_⟩
  · rw [hred]
    simp only
    rw [hcnt]
    exact upsertCount_le_one w zoneID k desc.domainValidationOptions []
  · rw [hred]
    simp only
    intro hok
    rw [hcnt]
    exact upsertCount_success_exact w zoneID k desc.domainValidationOptions []
      (by simp) hok
  · intro o opts seen h
    exact process_cons_none w zoneID o opts seen h

/-- Record used by the C6 witness. -/
def dupRecord : ResourceRecord := ⟨"_v.a.com.", "CNAME", "token-value"⟩

/-- Certificate description used by the C6 witness: two validation
requirements carrying the identical record descriptor. -/
def dupDesc : CertDescription :=
  { status := .pendingValidation
    failureReason := ""
    domainValidationOptions :=
      [⟨"a.com", some dupRecord⟩, ⟨"www.a.com", some dupRecord⟩] }

/-- World used by the C6 witness. -/
def dupWorld : World :=
  { quietWorld with describeCertificate := fun _ _ => .ok dupDesc }

/-- C6 (witness): with two identical validation requirements and a
successful pass, exactly one upsert for that record is issued. -/
theorem c6_validation_record_dedup_witness :
    dupWorld.describeCertificate 0 "arn-dup" = .ok dupDesc
    ∧ upsertCountWithKey (recordKey dupRecord)
        (createRoute53ValidationRecords dupWorld "arn-dup" "Z1" 0).2.1 = 1 := by
  constructor
  · rfl
  · have h := (c6_validation_record_dedup dupWorld "arn-dup" "Z1" 0 dupDesc
      (recordKey dupRecord) rfl).2.1 (by decide)
    rw [h]
    decide

end AcmManager

namespace AcmManager

/-! ### Effect-trace classification for the certificate-ensure path -/

/-- Effects `ensureCertificate` may legitimately produce: certificate
listing/request/describe and DNS listing/upsert — never a certificate
deletion and never a resource write. -/
def ensureEffectOk (e : Effect) : Bool :=
  match e with
  | Effect.listCerts => true
  | Effect.requestCert _ => true
  | Effect.describeCert _ => true
  | Effect.listZones => true
  | Effect.upsertRecord _ => true
  | _ => false

theorem zoneResolveEffs_ok (zoneID : String) :
    ∀ e ∈ zoneResolveEffs zoneID, ensureEffectOk e = true := by
  intro e he
  unfold zoneResolveEffs at he
  rcases (by split at he <;> simp_all : e = Effect.listZones) with rfl
  rfl

theorem process_effects_ok (w : World) (zoneID : String) :
    ∀ (opts : List DomainValidationOption) (seen : List String),
      ∀ e ∈ (processValidationOptions w zoneID opts seen).2, ensureEffectOk e = true := by
  intro opts
  induction opts with
  | nil =>
    intro seen e he
    simp [processValidationOptions] at he
  | cons o rest ih =>
    intro seen e he
    cases hrec : o.resourceRecord with
    | none =>
      rw [process_cons_none w zoneID o rest seen hrec] at he
      exact ih seen e he
    | some record =>
      cases hseen : seen.contains (recordKey record) with
      | true =>
        rw [process_cons_seen w zoneID o rest seen record hrec hseen] at he
        exact ih seen e he
      | false =>
        cases hzone : zoneResolve w zoneID o with
        | error er =>
          rw [process_cons_zone_error w zoneID o rest seen record er hrec hseen hzone] at he
          exact zoneResolveEffs_ok zoneID e he
        | ok hz =>
          cases hrrs : w.changeRRS (buildChange hz record) with
          | error er =>
            rw [process_cons_rrs_error w zoneID o rest seen record hz er hrec hseen hzone hrrs]
              at he
            rcases List.mem_append.mp he with h1 | h2
            · exact zoneResolveEffs_ok zoneID e h1
            · rcases (by simpa using h2 : e = Effect.upsertRecord (buildChange hz record))
                with rfl
              rfl
          | ok u =>
            rw [process_cons_ok w zoneID o rest seen record hz u hrec hseen hzone hrrs] at he
            simp only at he
            rcases List.mem_append.mp he with h12 | h3
            · rcases List.mem_append.mp h12 with h1 | h2
              · exact zoneResolveEffs_ok zoneID e h1
              · rcases (by simpa using h2 : e = Effect.upsertRecord (buildChange hz record))
                  with rfl
                rfl
            · exact ih (seen ++ [recordKey record]) e h3

theorem createRecords_effects_ok (w : World) (certArn zoneID : String) (n : Nat) :
    ∀ e ∈ (createRoute53ValidationRecords w certArn zoneID n).2.1, ensureEffectOk e = true := by
  intro e he
  unfold createRoute53ValidationRecords at he
  cases hd : w.describeCertificate n certArn with
  | error er =>
    rw [hd] at he
    rcases (by simpa using he : e = Effect.describeCert certArn) with rfl
    rfl
  | ok desc =>
    rw [hd] at he
    simp only at he
    rcases List.mem_cons.mp he with h1 | h2
    · rw [h1]; rfl
    · exact process_effects_ok w zoneID desc.domainValidationOptions [] e h2

/-! Step equations for the poll loop. -/

theorem pollLoop_timeout_eq (w : World) (certArn : String) (t n : Nat)
    (ht : validationTimeoutSeconds < t) :
    pollLoop w certArn t n =
      (some ("certificate validation timed out: " ++ certArn), [], n) := by
  rw [pollLoop]
  rw [dif_pos ht]

theorem pollLoop_describe_error_eq (w : World) (certArn : String) (t n : Nat) (e : String)
    (ht : ¬ validationTimeoutSeconds < t)
    (hd : w.describeCertificate n certArn = .error e) :
    pollLoop w certArn t n = (some e, [Effect.describeCert certArn], n + 1) := by
  rw [pollLoop]
  rw [dif_neg ht, hd]

theorem pollLoop_issued_eq (w : World) (certArn : String) (t n : Nat)
    (d : CertDescription)
    (ht : ¬ validationTimeoutSeconds < t)
    (hd : w.describeCertificate n certArn = .ok d)
    (hst : d.status = CertStatus.issued) :
    pollLoop w certArn t n = (none, [Effect.describeCert certArn], n + 1) := by
  rw [pollLoop]
  rw [dif_neg ht, hd]
  simp only
  rw [hst]

theorem pollLoop_failed_eq (w : World) (certArn : String) (t n : Nat)
    (d : CertDescription)
    (ht : ¬ validationTimeoutSeconds < t)
    (hd : w.describeCertificate n certArn = .ok d)
    (hst : d.status = CertStatus.failed) :
    pollLoop w certArn t n =
      (some ("certificate validation failed: " ++ d.failureReason),
        [Effect.describeCert certArn], n + 1) := by
  rw [pollLoop]
  rw [dif_neg ht, hd]
  simp only
  rw [hst]

theorem pollLoop_step_eq (w : World) (certArn : String) (t n : Nat)
    (d : CertDescription)
    (ht : ¬ validationTimeoutSeconds < t)
    (hd : w.describeCertificate n certArn = .ok d)
    (hni : d.status ≠ CertStatus.issued)
    (hnf : d.status ≠ CertStatus.failed) :
    pollLoop w certArn t n =
      ((pollLoop w certArn (t + pollIntervalSeconds) (n + 1)).1,
        Effect.describeCert certArn
          :: (pollLoop w certArn (t + pollIntervalSeconds) (n + 1)).2.1,
        (pollLoop w certArn (t + pollIntervalSeconds) (n + 1)).2.2) := by
  conv_lhs => rw [pollLoop]
  rw [dif_neg ht, hd]
  simp only

theorem pollLoop_effects_ok_fuel (w : World) (certArn : String) :
    ∀ (fuel t n : Nat), validationTimeoutSeconds + 1 - t ≤ fuel →
      ∀ e ∈ (pollLoop w certArn t n).2.1, ensureEffectOk e = true := by
  intro fuel
  induction fuel with
  | zero =>
    intro t n hf e he
    have ht : validationTimeoutSeconds < t := by omega
    rw [pollLoop_timeout_eq w certArn t n ht] at he
    simp at he
  | succ fuel ih =>
    intro t n hf e he
    by_cases ht : validationTimeoutSeconds < t
    · rw [pollLoop_timeout_eq w certArn t n ht] at he
      simp at he
    · cases hd : w.describeCertificate n certArn with
      | error er =>
        rw [pollLoop_describe_error_eq w certArn t n er ht hd] at he
        rcases (by simpa using he : e = Effect.describeCert certArn) with rfl
        rfl
      | ok desc =>
        by_cases hsi : desc.status = CertStatus.issued
        · rw [pollLoop_issued_eq w certArn t n desc ht hd hsi] at he
          rcases (by simpa using he : e = Effect.describeCert certArn) with rfl
          rfl
        · by_cases hsf : desc.status = CertStatus.failed
          · rw [pollLoop_failed_eq w certArn t n desc ht hd hsf] at he
            rcases (by simpa using he : e = Effect.describeCert certArn) with rfl
            rfl
          · rw [pollLoop_step_eq w certArn t n desc ht hd hsi hsf] at he
            rcases List.mem_cons.mp he with h1 | h2
            · rw [h1]; rfl
            · refine ih (t + pollIntervalSeconds) (n + 1) ?_ e h2
              have hp : pollIntervalSeconds = 15 := rfl
              have hv : validationTimeoutSeconds = 600 := rfl
              omega

theorem pollLoop_effects_ok (w : World) (certArn : String) (t n : Nat) :
    ∀ e ∈ (pollLoop w certArn t n).2.1, ensureEffectOk e = true :=
  pollLoop_effects_ok_fuel w certArn (validationTimeoutSeconds + 1) t n (by omega)

/-- With every describe call reporting PendingValidation, the poll loop
runs out the fixed deadline and returns the timeout error. -/
theorem pollLoop_pending_timeout_fuel (w : World) (certArn : String)
    (hdesc : ∀ m, ∃ d, w.describeCertificate m certArn = .ok d
      ∧ d.status = CertStatus.pendingValidation) :
    ∀ (fuel t n : Nat), validationTimeoutSeconds + 1 - t ≤ fuel →
      (pollLoop w certArn t n).1 =
        some ("certificate validation timed out: " ++ certArn) := by
  intro fuel
  induction fuel with
  | zero =>
    intro t n hf
    have ht : validationTimeoutSeconds < t := by omega
    rw [pollLoop_timeout_eq w certArn t n ht]
  | succ fuel ih =>
    intro t n hf
    by_cases ht : validationTimeoutSeconds < t
    · rw [pollLoop_timeout_eq w certArn t n ht]
    · obtain ⟨d, hd, hst⟩ := hdesc n
      have hni : d.status ≠ CertStatus.issued := by rw [hst]; intro hx; exact CertStatus.noConfusion hx
      have hnf : d.status ≠ CertStatus.failed := by rw [hst]; intro hx; exact CertStatus.noConfusion hx
      rw [pollLoop_step_eq w certArn t n d ht hd hni hnf]
      refine ih (t + pollIntervalSeconds) (n + 1) ?_
      have hp : pollIntervalSeconds = 15 := rfl
      have hv : validationTimeoutSeconds = 600 := rfl
      omega

theorem pollLoop_pending_timeout (w : World) (certArn : String)
    (hdesc : ∀ m, ∃ d, w.describeCertificate m certArn = .ok d
      ∧ d.status = CertStatus.pendingValidation) (t n : Nat) :
    (pollLoop w certArn t n).1 =
      some ("certificate validation timed out: " ++ certArn) :=
  pollLoop_pending_timeout_fuel w certArn hdesc (validationTimeoutSeconds + 1) t n (by omega)

end AcmManager

namespace AcmManager

theorem ensureRequest_effects_ok (w : World) (domain : String) (cfg : IngressConfig)
    (effs0 : List Effect) (h0 : ∀ e ∈ effs0, ensureEffectOk e = true) :
    ∀ e ∈ (ensureRequest w domain cfg effs0).2.2, ensureEffectOk e = true := by
  intro e he
  unfold ensureRequest at he
  simp only at he
  cases hreq : w.requestCertificate (buildRequest domain cfg) with
  | error er =>
    rw [hreq] at he
    simp only at he
    rcases List.mem_append.mp he with h1 | h2
    · exact h0 e h1
    · rcases (by simpa using h2 : e = Effect.requestCert (buildRequest domain cfg)) with rfl
      rfl
  | ok arn =>
    rw [hreq] at he
    simp only at he
    cases hd1 : (createRoute53ValidationRecords w arn cfg.ZoneID 0).1 with
    | some er =>
      rw [hd1] at he
      simp only at he
      rcases List.mem_append.mp he with h12 | h3
      · rcases List.mem_append.mp h12 with h1 | h2
        · exact h0 e h1
        · rcases (by simpa using h2 : e = Effect.requestCert (buildRequest domain cfg)) with rfl
          rfl
      · exact createRecords_effects_ok w arn cfg.ZoneID 0 e h3
    | none =>
      rw [hd1] at he
      simp only at he
      rcases List.mem_append.mp he with h123 | h4
      · rcases List.mem_append.mp h123 with h12 | h3
        · rcases List.mem_append.mp h12 with h1 | h2
          · exact h0 e h1
          · rcases (by simpa using h2 : e = Effect.requestCert (buildRequest domain cfg))
              with rfl
            rfl
        · exact createRecords_effects_ok w arn cfg.ZoneID 0 e h3
      · exact pollLoop_effects_ok w arn 0 _ e h4

/-- Every effect of `ensureCertificate` is a certificate or DNS read,
request or upsert: it never deletes a certificate and never writes the
resource. -/
theorem ensure_effects_ok (w : World) (domain : String) (cfg : IngressConfig) :
    ∀ e ∈ (ensureCertificate w domain cfg).2.2, ensureEffectOk e = true := by
  intro e he
  unfold ensureCertificate at he
  by_cases hre : cfg.ReuseExisting = true
  · rw [if_pos hre] at he
    cases hlist : w.listCertificates with
    | error er =>
      rw [hlist] at he
      simp only at he
      rcases (by simpa using he : e = Effect.listCerts) with rfl
      rfl
    | ok certs =>
      rw [hlist] at he
      simp only at he
      cases hfind : certs.find? (fun c => equalFold c.domainName domain) with
      | some c =>
        rw [hfind] at he
        simp only at he
        rcases (by simpa using he : e = Effect.listCerts) with rfl
        rfl
      | none =>
        rw [hfind] at he
        simp only at he
        exact ensureRequest_effects_ok w domain cfg [Effect.listCerts]
          (by intro x hx; rcases (by simpa using hx : x = Effect.listCerts) with rfl; rfl) e he
  · rw [if_neg hre] at he
    exact ensureRequest_effects_ok w domain cfg [] (by intro x hx; simp at hx) e he

end AcmManager

namespace AcmManager

/-! ### C9 — DNS validation failure surfaces the new identifier -/

theorem ensureRequest_dns_error (w : World) (domain : String) (cfg : IngressConfig)
    (effs0 : List Effect) (arn e : String) (deffs : List Effect) (n2 : Nat)
    (hreq : w.requestCertificate (buildRequest domain cfg) = .ok arn)
    (hdns : createRoute53ValidationRecords w arn cfg.ZoneID 0 = (some e, deffs, n2)) :
    ensureRequest w domain cfg effs0 =
      (arn, some e, effs0 ++ [Effect.requestCert (buildRequest domain cfg)] ++ deffs) := by
  unfold ensureRequest
  simp [hreq, hdns]

/-- C9: when the certificate request succeeds but creating the DNS
validation records fails, `ensureCertificate` returns immediately — its
effect trace is exactly the reuse listing (when enabled), the request,
and the record-creation effects, with no poll-loop describe after them —
yet the returned identifier is the newly created certificate's, the
returned error is the record-creation error, and no certificate deletion
is ever issued. -/
theorem c9_dns_failure_surfaces_arn (w : World) (domain : String) (cfg : IngressConfig)
    (arn e : String) (deffs : List Effect) (n2 : Nat)
    (hreuse : cfg.ReuseExisting = true →
      ∃ certs, w.listCertificates = .ok certs ∧
        certs.find? (fun c => equalFold c.domainName domain) = none)
    (hreq : w.requestCertificate (buildRequest domain cfg) = .ok arn)
    (hdns : createRoute53ValidationRecords w arn cfg.ZoneID 0 = (some e, deffs, n2)) :
    ∃ pre, (pre = [] ∨ pre = [Effect.listCerts])
      ∧ ensureCertificate w domain cfg =
          (arn, some e, pre ++ [Effect.requestCert (buildRequest domain cfg)] ++ deffs)
      ∧ ∀ a, Effect.deleteCert a ∉ (ensureCertificate w domain cfg).2.2 := by
  have hnodel : ∀ a, Effect.deleteCert a ∉ (ensureCertificate w domain cfg).2.2 := by
    intro a hmem
    have hok := ensure_effects_ok w domain cfg (Effect.deleteCert a) hmem
    exact Bool.noConfusion hok
  by_cases hre : cfg.ReuseExisting = true
  · obtain ⟨certs, hlist, hfind⟩ := hreuse hre
    refine ⟨[Effect.listCerts], Or.inr rfl, ?_, hnodel⟩
    unfold ensureCertificate
    rw [if_pos hre, hlist]
    simp only
    rw [hfind]
    simp only
    exact ensureRequest_dns_error w domain cfg [Effect.listCerts] arn e deffs n2 hreq hdns
  · refine ⟨[], Or.inl rfl, ?_, hnodel⟩
    unfold ensureCertificate
    rw [if_neg hre]
    exact ensureRequest_dns_error w domain cfg [] arn e deffs n2 hreq hdns

/-- Description used by the C9 witness: one validation requirement with
a concrete record. -/
def c9Desc : CertDescription :=
  { status := .pendingValidation
    failureReason := ""
    domainValidationOptions := [⟨"a.com", some ⟨"_x.a.com.", "CNAME", "v"⟩⟩] }

/-- World used by the C9 witness: the record upsert is throttled. -/
def dnsFailWorld : World :=
  { quietWorld with
      describeCertificate := fun _ _ => .ok c9Desc
      changeRRS := fun _ => .error "Throttling" }

/-- Config used by the C9 witness (explicit zone override). -/
def c9Cfg : IngressConfig := ⟨true, "", "Z", false, [], 0, true, false, false⟩

/-- C9 (witness): the DNS-record failure at a concrete input. -/
theorem c9_dns_failure_surfaces_arn_witness :
    dnsFailWorld.requestCertificate (buildRequest "a.com" c9Cfg) = .ok "arn-new"
    ∧ createRoute53ValidationRecords dnsFailWorld "arn-new" c9Cfg.ZoneID 0 =
        (some "failed to create DNS validation record: Throttling",
          [Effect.describeCert "arn-new",
            Effect.upsertRecord ⟨"Z", "UPSERT", "_x.a.com.", "CNAME", 300, "v"⟩], 1)
    ∧ ∃ pre, (pre = [] ∨ pre = [Effect.listCerts])
        ∧ ensureCertificate dnsFailWorld "a.com" c9Cfg =
            ("arn-new", some "failed to create DNS validation record: Throttling",
              pre ++ [Effect.requestCert (buildRequest "a.com" c9Cfg)]
                ++ [Effect.describeCert "arn-new",
                  Effect.upsertRecord ⟨"Z", "UPSERT", "_x.a.com.", "CNAME", 300, "v"⟩])
        ∧ ∀ a, Effect.deleteCert a ∉ (ensureCertificate dnsFailWorld "a.com" c9Cfg).2.2 :=
  ⟨rfl, by decide,
    c9_dns_failure_surfaces_arn dnsFailWorld "a.com" c9Cfg "arn-new"
      "failed to create DNS validation record: Throttling"
      [Effect.describeCert "arn-new",
        Effect.upsertRecord ⟨"Z", "UPSERT", "_x.a.com.", "CNAME", 300, "v"⟩] 1
      (fun _ => ⟨[], rfl, rfl⟩) rfl (by decide)⟩

end AcmManager

namespace AcmManager

/-! ### C3 — pending-forever times out and leaves the resource unpatched -/

theorem ensureRequest_pending_timeout (w : World) (domain : String)
    (cfg : IngressConfig) (effs0 : List Effect) (arn : String)
    (hreq : w.requestCertificate (buildRequest domain cfg) = .ok arn)
    (hdns : (createRoute53ValidationRecords w arn cfg.ZoneID 0).1 = none)
    (hdesc : ∀ m, ∃ d, w.describeCertificate m arn = .ok d
      ∧ d.status = CertStatus.pendingValidation) :
    (ensureRequest w domain cfg effs0).1 = arn
    ∧ (ensureRequest w domain cfg effs0).2.1 =
        some ("certificate validation timed out: " ++ arn) := by
  unfold ensureRequest
  simp only [hreq, hdns]
  exact ⟨trivial,
    pollLoop_pending_timeout w arn hdesc 0
      (createRoute53ValidationRecords w arn cfg.ZoneID 0).2.2⟩

theorem ensure_pending_timeout (w : World) (domain : String) (cfg : IngressConfig)
    (arn : String)
    (hreuse : cfg.ReuseExisting = true →
      ∃ certs, w.listCertificates = .ok certs ∧
        certs.find? (fun c => equalFold c.domainName domain) = none)
    (hreq : w.requestCertificate (buildRequest domain cfg) = .ok arn)
    (hdns : (createRoute53ValidationRecords w arn cfg.ZoneID 0).1 = none)
    (hdesc : ∀ m, ∃ d, w.describeCertificate m arn = .ok d
      ∧ d.status = CertStatus.pendingValidation) :
    (ensureCertificate w domain cfg).1 = arn
    ∧ (ensureCertificate w domain cfg).2.1 =
        some ("certificate validation timed out: " ++ arn) := by
  by_cases hre : cfg.ReuseExisting = true
  · obtain ⟨certs, hlist, hfind⟩ := hreuse hre
    unfold ensureCertificate
    rw [if_pos hre, hlist]
    simp only
    rw [hfind]
    simp only
    exact ensureRequest_pending_timeout w domain cfg [Effect.listCerts] arn hreq hdns hdesc
  · unfold ensureCertificate
    rw [if_neg hre]
    exact ensureRequest_pending_timeout w domain cfg [] arn hreq hdns hdesc

/-- C3: if every describe call keeps reporting PendingValidation, the
poll loop exhausts the fixed 10-minute deadline and `ensureCertificate`
fails with the timeout error; on that failure the reconcile returns the
error, requests no requeue, leaves the resource object (and so its
certificate-identifier annotation) exactly as loaded, and performs no
patch call. -/
theorem c3_pending_validation_timeout (w : World) (ing : Ingress)
    (cfg : IngressConfig) (arn : String)
    (hcfg : ParseIngressAnnotations w.parseDuration ing.annotations = cfg)
    (hm : cfg.Managed = true)
    (hdel : ing.deletionTimestamp = false)
    (hfin : ing.finalizers.contains ingressFinalizer = true)
    (hreuse : cfg.ReuseExisting = true →
      ∃ certs, w.listCertificates = .ok certs ∧
        certs.find? (fun c => equalFold c.domainName (resolveDomain cfg ing)) = none)
    (hreq : w.requestCertificate (buildRequest (resolveDomain cfg ing) cfg) = .ok arn)
    (hdns : (createRoute53ValidationRecords w arn cfg.ZoneID 0).1 = none)
    (hdesc : ∀ m, ∃ d, w.describeCertificate m arn = .ok d
      ∧ d.status = CertStatus.pendingValidation) :
    (ensureCertificate w (resolveDomain cfg ing) cfg).2.1 =
        some ("certificate validation timed out: " ++ arn)
    ∧ (Reconcile w ing).err = some ("certificate validation timed out: " ++ arn)
    ∧ (Reconcile w ing).ingress = ing
    ∧ (Reconcile w ing).requeueAfterSeconds = none
    ∧ ∀ i, Effect.patchIngress i ∉ (Reconcile w ing).effects := by
  have hens := ensure_pending_timeout w (resolveDomain cfg ing) cfg arn hreuse hreq hdns hdesc
  have hfin' : ingressFinalizer ∈ ing.finalizers := by simpa using hfin
  have hrec : Reconcile w ing =
      ⟨none, some ("certificate validation timed out: " ++ arn), ing,
        (ensureCertificate w (resolveDomain cfg ing) cfg).2.2⟩ := by
    unfold Reconcile
    rw [hcfg]
    simp [hm, hdel, hfin, hfin', hens.2]
  refine ⟨hens.2, by rw [hrec], by rw [hrec], by rw [hrec], ?_⟩
  intro i hmem
  rw [hrec] at hmem
  have hok := ensure_effects_ok w (resolveDomain cfg ing) cfg (Effect.patchIngress i) hmem
  exact Bool.noConfusion hok

/-- Ingress used by the C3 witness: managed, zone override, never
deleted, finalizer already present. -/
def pendingIngress : Ingress :=
  { annotations := [(managedKey, "true"), (zoneIdKey, "Z"), (domainKey, "a.com")]
    finalizers := [ingressFinalizer]
    deletionTimestamp := false
    ruleHosts := [] }

/-- C3 (witness): with `quietWorld` every describe call reports
PendingValidation forever; the reconcile surfaces the timeout error and
hands back the resource unchanged. -/
theorem c3_pending_validation_timeout_witness :
    (∀ m, ∃ d, quietWorld.describeCertificate m "arn-new" = .ok d
        ∧ d.status = CertStatus.pendingValidation)
    ∧ (Reconcile quietWorld pendingIngress).err =
        some ("certificate validation timed out: " ++ "arn-new")
    ∧ (Reconcile quietWorld pendingIngress).ingress = pendingIngress :=
  have h := c3_pending_validation_timeout quietWorld pendingIngress
    (ParseIngressAnnotations quietWorld.parseDuration pendingIngress.annotations)
    "arn-new" rfl (by decide) rfl rfl
    (fun _ => ⟨[], rfl, rfl⟩) rfl (by decide)
    (fun m => ⟨_, rfl, rfl⟩)
  ⟨fun m => ⟨_, rfl, rfl⟩, h.2.1, h.2.2.1⟩

end AcmManager

namespace AcmManager

/-! ### C4 — hosted-zone longest-suffix resolution -/

/-- Whether a zone participates in matching: its stripped name is a
nonempty suffix of the domain (zones whose stripped name is empty can
never win, since the loop replaces only on strictly greater length
starting from zero). -/
def zoneMatches (domain : String) (z : HostedZone) : Bool :=
  goHasSuffix domain (stripTrailingDot z.name)
    && decide (0 < (stripTrailingDot z.name).utf8ByteSize)

/-- Byte length of a zone's stripped name (Go's `len`). -/
def zoneLen (z : HostedZone) : Nat := (stripTrailingDot z.name).utf8ByteSize

/-- Modelled from the amended claim's words: among the zones whose
stripped name is a nonempty suffix of the domain, the first one of
maximal stripped length (`List.argmax` keeps the earliest maximum). -/
def bestZoneSpec (domain : String) (zones : List HostedZone) : Option HostedZone :=
  (zones.filter (zoneMatches domain)).argmax zoneLen

/-- Relation between the Go loop accumulator and the declarative
argmax accumulator. -/
def ZoneAccRel (domain : String) (acc : String × Nat) (oz : Option HostedZone) : Prop :=
  (oz = none ∧ acc = ("", 0)) ∨
  (∃ z, oz = some z ∧ zoneMatches domain z = true ∧ z.id ≠ "" ∧ acc = (z.id, zoneLen z))

theorem zoneFold_rel (domain : String) :
    ∀ (zones : List HostedZone) (acc : String × Nat) (oz : Option HostedZone),
      (∀ z ∈ zones, z.id ≠ "") → ZoneAccRel domain acc oz →
      ZoneAccRel domain (zones.foldl (zoneStep domain) acc)
        ((zones.filter (zoneMatches domain)).foldl
          (List.argAux fun b c => zoneLen c < zoneLen b) oz) := by
  intro zones
  induction zones with
  | nil =>
    intro acc oz hid hrel
    simpa using hrel
  | cons zh zt ih =>
    intro acc oz hid hrel
    have hidh : zh.id ≠ "" := hid zh (List.mem_cons_self zh zt)
    have hidt : ∀ z ∈ zt, z.id ≠ "" := fun z hz => hid z (List.mem_cons_of_mem zh hz)
    rw [List.foldl_cons, List.filter_cons]
    cases hm : zoneMatches domain zh with
    | false =>
      have hstep : zoneStep domain acc zh = acc := by
        unfold zoneStep
        cases hs : goHasSuffix domain (stripTrailingDot zh.name) with
        | false => simp [hs]
        | true =>
          have hlen : (stripTrailingDot zh.name).utf8ByteSize = 0 := by
            unfold zoneMatches at hm
            rw [hs] at hm
            simpa using hm
          simp [hs, hlen]
      rw [hstep, if_neg (by simp [hm])]
      exact ih acc oz hidt hrel
    | true =>
      rw [if_pos (by simp [hm]), List.foldl_cons]
      have hsm := hm
      unfold zoneMatches at hsm
      have hs : goHasSuffix domain (stripTrailingDot zh.name) = true :=
        (Bool.and_eq_true _ _ |>.mp hsm).1
      have hpos : 0 < (stripTrailingDot zh.name).utf8ByteSize := by
        have := (Bool.and_eq_true _ _ |>.mp hsm).2
        simpa using this
      rcases hrel with ⟨hoz, hacc⟩ | ⟨z, hoz, hzm, hzid, hacc⟩
      · rw [hoz, hacc]
        have hstep : zoneStep domain ("", 0) zh = (zh.id, zoneLen zh) := by
          unfold zoneStep
          simp [hs, hpos, zoneLen]
        rw [hstep]
        have harg : (List.argAux (fun b c => zoneLen c < zoneLen b) none zh) = some zh := rfl
        rw [harg]
        exact ih (zh.id, zoneLen zh) (some zh) hidt
          (Or.inr ⟨zh, rfl, hm, hidh, rfl⟩)
      · rw [hoz, hacc]
        by_cases hlt : zoneLen z < zoneLen zh
        · have hstep : zoneStep domain (z.id, zoneLen z) zh = (zh.id, zoneLen zh) := by
            unfold zoneStep
            simp only [zoneLen] at hlt
            simp [hs, hlt, zoneLen]
          have harg : (List.argAux (fun b c => zoneLen c < zoneLen b) (some z) zh)
              = some zh := by
            unfold List.argAux
            simp [hlt]
          rw [hstep, harg]
          exact ih (zh.id, zoneLen zh) (some zh) hidt
            (Or.inr ⟨zh, rfl, hm, hidh, rfl⟩)
        · have hstep : zoneStep domain (z.id, zoneLen z) zh = (z.id, zoneLen z) := by
            unfold zoneStep
            simp only [zoneLen] at hlt
            simp [hs, hlt, zoneLen]
          have harg : (List.argAux (fun b c => zoneLen c < zoneLen b) (some z) zh)
              = some z := by
            unfold List.argAux
            simp [hlt]
          rw [hstep, harg]
          exact ih (z.id, zoneLen z) (some z) hidt
            (Or.inr ⟨z, rfl, hzm, hzid, rfl⟩)

/-- C4 (counterexample): the claim says resolution fails exactly when no
zone's stripped name is a suffix of the domain. A zone named `"."`
strips to `""`, which is a suffix of every domain — yet the resolver
fails, because a zero-length match can never replace the initial
zero-length best. -/
theorem c4_zone_counterexample :
    stripTrailingDot (HostedZone.mk "." "Z1").name = ""
    ∧ goHasSuffix "a" (stripTrailingDot (HostedZone.mk "." "Z1").name) = true
    ∧ findMatchingHostedZone (.ok [HostedZone.mk "." "Z1"]) "a" =
        .error "no matching hosted zone found for domain: a" :=
  ⟨rfl, rfl, rfl⟩

/-- C4 (amended): provided every listed zone has a nonempty identifier,
the resolver strips each zone name's trailing dot and returns — with the
`/hostedzone/` path prefix stripped — the identifier of the first zone
of greatest stripped-name length among those whose stripped name is a
**nonempty** suffix of the domain (only a strictly greater length
replaces the current best), and fails exactly when no zone's stripped
name is a nonempty suffix of the domain. -/
theorem c4_zone_longest_suffix (domain : String) (zones : List HostedZone)
    (hid : ∀ z ∈ zones, z.id ≠ "") :
    findMatchingHostedZone (.ok zones) domain =
      (match bestZoneSpec domain zones with
       | none => .error ("no matching hosted zone found for domain: " ++ domain)
       | some z => .ok (trimLeading "/hostedzone/" z.id)) := by
  have hrel := zoneFold_rel domain zones ("", 0) none hid (Or.inl ⟨rfl, rfl⟩)
  unfold findMatchingHostedZone bestZoneSpec List.argmax
  simp only
  rcases hrel with ⟨hoz, hacc⟩ | ⟨z, hoz, hzm, hzid, hacc⟩
  · rw [hacc, hoz]
    simp
  · rw [hacc, hoz]
    have hne : (z.id == "") = false := beq_eq_false_iff_ne.mpr hzid
    simp [hne]

/-- C4 (witness): two zones, the longer suffix wins and the path prefix
is stripped. -/
theorem c4_zone_longest_suffix_witness :
    (∀ z ∈ [(HostedZone.mk "example.com." "/hostedzone/Z1"),
        HostedZone.mk "a.example.com" "Z2"], z.id ≠ "")
    ∧ findMatchingHostedZone
        (.ok [HostedZone.mk "example.com." "/hostedzone/Z1",
          HostedZone.mk "a.example.com" "Z2"]) "b.a.example.com" =
      (match bestZoneSpec "b.a.example.com"
          [HostedZone.mk "example.com." "/hostedzone/Z1",
            HostedZone.mk "a.example.com" "Z2"] with
       | none => .error ("no matching hosted zone found for domain: " ++ "b.a.example.com")
       | some z => .ok (trimLeading "/hostedzone/" z.id)) :=
  ⟨by decide,
    c4_zone_longest_suffix "b.a.example.com"
      [HostedZone.mk "example.com." "/hostedzone/Z1", HostedZone.mk "a.example.com" "Z2"]
      (by decide)⟩

end AcmManager
